import Mathlib

/-!
Verification development for the `cata_git_mod_manager` repository.

The development shallowly embeds the core logic of the tool:

* `compare_versions`  — `Updater._compare_versions` (src/mod_manager/updater.py)
* `check_for_updates` — `Updater.check_for_updates` (src/mod_manager/updater.py)
* `perform_update`    — the filesystem effect of `Updater.perform_update`
  (src/mod_manager/updater.py, steps 3-7 of the self-update protocol)
* `root_pfx`, `logic_members`, `mod_folders`, `candidate_writes` — the archive
  root resolution / extraction logic of
  `ContentManagerLogic.download_and_extract_mod`
  (src/mod_manager/content_manager/logic.py) and
  `ModManagerApp._download_and_extract_mod` (src/mod_manager.py)
* `delete_profile`    — `ContentManagerLogic.delete_profile`
  (src/mod_manager/content_manager/logic.py)

Python strings are modeled as `List Char` (named `Str`); Lean's builtin
`String` functions are avoided because they do not reduce inside the kernel.
String literals appear as `"...".data`.
-/

/-- Python strings are modeled as lists of characters. -/
abbrev Str := List Char

/-- Python `s.split(sep)` for a single-character separator.  Note that
`"".split('.') == ['']`, i.e. the result is never the empty list. -/
def splitCh (sep : Char) : Str → List Str
  | [] => [[]]
  | c :: cs =>
    if c = sep then [] :: splitCh sep cs
    else
      match splitCh sep cs with
      | [] => [[c]]
      | h :: t => (c :: h) :: t

theorem splitCh_ne_nil (sep : Char) : ∀ s : Str, splitCh sep s ≠ []
  | [] => by simp [splitCh]
  | c :: cs => by
    unfold splitCh
    by_cases h : c = sep
    · simp [h]
    · simp only [h, if_false]
      cases hs : splitCh sep cs <;> simp

/-- Python `int(seg)` on a version segment, as used by
`Updater._compare_versions`: succeeds exactly on nonempty all-digit
segments (the sign/whitespace/underscore forms accepted by Python's `int`
do not occur in dotted version strings and are not modeled). -/
def parseSeg (s : Str) : Option Nat :=
  if s ≠ [] ∧ s.all Char.isDigit = true then
    some (s.foldl (fun n c => n * 10 + (c.toNat - 48)) 0)
  else none

/-- `[int(x) for x in version.split('.')]` — `some` exactly when every
dot-separated segment parses, mirroring the `try` block of
`Updater._compare_versions`. -/
def parseVersion (s : Str) : Option (List Nat) := (splitCh '.' s).mapM parseSeg

/-- Python's `>` on two lists of integers (lexicographic, shorter prefix is
smaller). -/
def listGt : List Nat → List Nat → Bool
  | _ :: _, [] => true
  | [], _ => false
  | a :: as, b :: bs => if b < a then true else if a < b then false else listGt as bs

/-- Zero-padding of the shorter parts list, from
`current_parts += [0] * (max_len - len(current_parts))`. -/
def padTo (l : List Nat) (m : Nat) : List Nat := l ++ List.replicate (m - l.length) 0

/-- `Updater._compare_versions(current, latest)`: parse both strings as dotted
integer tuples, pad with zeros to equal length and compare; on any parse
failure fall back to plain string inequality (`latest_parts > current_parts`
itself never raises, so the bare `except` is reached exactly when parsing
fails). -/
def compare_versions (current latest : Str) : Bool :=
  match parseVersion current, parseVersion latest with
  | some cp, some lp =>
      listGt (padTo lp (max cp.length lp.length)) (padTo cp (max cp.length lp.length))
  | _, _ => current != latest

theorem listGt_iff_lex : ∀ x y : List Nat, x.length = y.length →
    (listGt x y = true ↔ List.Lex (· < ·) y x)
  | [], [], _ => by
    constructor
    · intro h; simp [listGt] at h
    · intro h; cases h
  | a :: as, [], h => by simp at h
  | [], b :: bs, h => by simp at h
  | a :: as, b :: bs, h => by
    have hlen : as.length = bs.length := by simpa using h
    by_cases h1 : b < a
    · simp only [listGt, h1, if_true]
      exact ⟨fun _ => List.Lex.rel h1, fun _ => by trivial⟩
    · by_cases h2 : a < b
      · simp only [listGt, h1, if_false, h2, if_true]
        constructor
        · intro hf; cases hf
        · intro hl
          cases hl with
          | rel hr => exact absurd hr h1
          | cons ht => exact absurd h2 (lt_irrefl a)
      · have hab : a = b := by omega
        subst hab
        simp only [listGt, h1, if_false, h2, if_false]
        constructor
        · intro hg
          exact List.Lex.cons ((listGt_iff_lex as bs hlen).mp hg)
        · intro hl
          cases hl with
          | rel hr => exact absurd hr h1
          | cons ht => exact (listGt_iff_lex as bs hlen).mpr ht

theorem padTo_length {l : List Nat} {m : Nat} (h : l.length ≤ m) :
    (padTo l m).length = m := by
  simp [padTo]
  omega

/-- C3: on fully numeric dotted version strings, `_compare_versions` pads the
shorter integer tuple with zeros and returns `true` exactly when the
candidate's tuple is lexicographically greater than the current one; in
particular it is `false` on `("1.2.3","1.2.3")`, `true` on
`("1.9.0","1.10.0")` and `false` on `("1.0","1.0.0")`. -/
theorem c3_compare_versions_numeric :
    (∀ (c l : Str) (cp lp : List Nat), parseVersion c = some cp →
      parseVersion l = some lp →
      (compare_versions c l = true ↔
        List.Lex (· < ·) (padTo cp (max cp.length lp.length))
          (padTo lp (max cp.length lp.length))))
    ∧ compare_versions "1.2.3".data "1.2.3".data = false
    ∧ compare_versions "1.9.0".data "1.10.0".data = true
    ∧ compare_versions "1.0".data "1.0.0".data = false := by
  refine ⟨?_, by decide, by decide, by decide⟩
  intro c l cp lp hc hl
  simp only [compare_versions, hc, hl]
  exact listGt_iff_lex _ _
    (by rw [padTo_length (le_max_right _ _), padTo_length (le_max_left _ _)])

/-- Witness for C3, at the pair `("1.9.0","1.10.0")`. -/
theorem c3_compare_versions_numeric_witness :
    compare_versions "1.9.0".data "1.10.0".data = true :=
  (c3_compare_versions_numeric.1 "1.9.0".data "1.10.0".data [1, 9, 0] [1, 10, 0]
    (by decide) (by decide)).mpr (by decide)

theorem compare_versions_eq_bne {c l : Str}
    (h : parseVersion c = none ∨ parseVersion l = none) :
    compare_versions c l = (c != l) := by
  cases hc : parseVersion c with
  | none => cases hl : parseVersion l <;> simp [compare_versions, hc, hl]
  | some cp =>
    cases hl : parseVersion l with
    | none => simp [compare_versions, hc, hl]
    | some lp =>
      rcases h with h | h
      · rw [hc] at h; exact absurd h (by simp)
      · rw [hl] at h; exact absurd h (by simp)

/-- C4: whenever at least one of the two version strings fails to parse as a
dotted integer tuple, `_compare_versions` falls back to string inequality
(and raises nothing); in particular `("update_test","1.0.2")` yields `true`. -/
theorem c4_compare_versions_fallback :
    (∀ c l : Str, parseVersion c = none ∨ parseVersion l = none →
      (compare_versions c l = true ↔ c ≠ l))
    ∧ compare_versions "update_test".data "1.0.2".data = true := by
  refine ⟨?_, by decide⟩
  intro c l h
  rw [compare_versions_eq_bne h]
  exact bne_iff_ne

/-- Python `tag_name.lstrip("v")`: strips every leading `'v'`. -/
def lstrip_v (s : Str) : Str := s.dropWhile (fun c => c = 'v')

/-- Match of the regex `\d+\.\d+\.\d+` anchored at the start of `cs`
(the pattern needs no backtracking: a maximal digit run is never followed by
another digit, so greedy `\d+` is exact). -/
def matchTripleAt (cs : Str) : Option Str :=
  let d1 := cs.takeWhile Char.isDigit
  match cs.dropWhile Char.isDigit with
  | c1 :: r2 =>
    let d2 := r2.takeWhile Char.isDigit
    match r2.dropWhile Char.isDigit with
    | c3 :: r4 =>
      let d3 := r4.takeWhile Char.isDigit
      if d1 ≠ [] ∧ c1 = '.' ∧ d2 ≠ [] ∧ c3 = '.' ∧ d3 ≠ [] then
        some (d1 ++ '.' :: d2 ++ '.' :: d3)
      else none
    | [] => none
  | [] => none

/-- Python `re.search(r'(\d+\.\d+\.\d+)', s)`: the leftmost match of the
dotted-number pattern, used by `check_for_updates` to recover a version from
the release title. -/
def search_triple : Str → Option Str
  | [] => none
  | c :: cs =>
    match matchTripleAt (c :: cs) with
    | some m => some m
    | none => search_triple cs

theorem matchTripleAt_ne_nil {cs m : Str} (h : matchTripleAt cs = some m) : m ≠ [] := by
  unfold matchTripleAt at h
  cases hr : cs.dropWhile Char.isDigit with
  | nil => rw [hr] at h; exact absurd h (by simp)
  | cons c1 r2 =>
    rw [hr] at h
    dsimp only at h
    cases hr3 : r2.dropWhile Char.isDigit with
    | nil => rw [hr3] at h; exact absurd h (by simp)
    | cons c3 r4 =>
      rw [hr3] at h
      dsimp only at h
      split at h
      · rename_i hcond
        cases h
        intro habs
        simp at habs
      · exact absurd h (by simp)

theorem search_triple_ne_nil : ∀ {s m : Str}, search_triple s = some m → m ≠ []
  | [], m, h => by simp [search_triple] at h
  | c :: cs, m, h => by
    unfold search_triple at h
    cases hm : matchTripleAt (c :: cs) with
    | some m0 =>
      rw [hm] at h
      cases h
      exact matchTripleAt_ne_nil hm
    | none =>
      rw [hm] at h
      exact search_triple_ne_nil h

/-- One release asset, from the JSON `assets[]` array: its `name` and its
optional `browser_download_url`. -/
structure Asset where
  name : Str
  browser_download_url : Option Str
deriving DecidableEq

/-- The release-metadata fields `check_for_updates` reads, with the same
defaults the Python `dict.get` calls supply (`""` for the strings, `[]` for
`assets`, `None` for `zipball_url`). -/
structure ReleaseData where
  tag_name : Str
  name : Str
  body : Str
  assets : List Asset
  zipball_url : Option Str
deriving DecidableEq

/-- Outcome of the metadata-fetch phase of `check_for_updates`
(lines 94-126 of updater.py): an exception from `requests` / JSON parsing
(`raised`, caught by the function's `except` arms), the fall-through return
for a non-404 non-200 status whose `raise_for_status` does not raise
(`badStatus`), the empty release-list fallback (`emptyList`), or a release
object. -/
inductive FetchResult where
  | raised
  | badStatus
  | emptyList
  | release (r : ReleaseData)

/-- Python truthiness test `not download_url` for an optional string. -/
def isBlank : Option Str → Bool
  | none => true
  | some s => s.isEmpty

/-- Version extraction of `check_for_updates`: strip leading `v` from the
tag; if the result is `"latest"` or empty, search the release title for a
dotted number, else use it as is. -/
def extract_version (r : ReleaseData) : Option Str :=
  let latest := lstrip_v r.tag_name
  if latest = "latest".data ∨ latest = [] then search_triple r.name else some latest

/-- Download-URL selection of `check_for_updates`: the
`browser_download_url` of the first asset whose name ends in `.zip`,
falling back to `zipball_url` when that is missing or empty. -/
def pick_download_url (assets : List Asset) (zipball : Option Str) : Option Str :=
  let fromAsset := (assets.find? (fun a => (".zip".data).isSuffixOf a.name)).bind
    (fun a => a.browser_download_url)
  if isBlank fromAsset then zipball else fromAsset

/-- `Updater.check_for_updates`, as a function of the configured update URL,
the current version and the outcome of the metadata fetch.  Every `except`
arm of the Python function maps to a returned tuple, so the embedding is
total: no outcome propagates an exception. -/
def check_for_updates (update_url current_version : Str) (fetch : FetchResult) :
    Bool × Option Str × Option Str × Option Str :=
  if update_url.isEmpty then (false, none, none, none)
  else
    match fetch with
    | FetchResult.raised => (false, none, none, none)
    | FetchResult.badStatus => (false, none, none, none)
    | FetchResult.emptyList => (false, none, none, none)
    | FetchResult.release r =>
      match extract_version r with
      | none => (false, none, none, none)
      | some latest =>
        let durl := pick_download_url r.assets r.zipball_url
        if isBlank durl then (false, some latest, none, some r.body)
        else (compare_versions current_version latest, some latest, durl, some r.body)

/-- C5 counterexample: comparing against the empty candidate string does not
yield `false` — the parse of `""` fails, so the string-inequality fallback
fires and `_compare_versions("1.0.5", "")` returns `true`. -/
theorem c5_empty_candidate_counterexample :
    compare_versions "1.0.5".data "".data = true := by decide

/-- C5 (amended): `_compare_versions` itself reports `true` against an empty
candidate exactly when the current version is nonempty (fallback by string
inequality); however `check_for_updates` never reaches the comparison with an
empty candidate: every successfully extracted version is nonempty, and when
no version can be extracted the function returns no-update
`(False, None, None, None)` before any comparison. -/
theorem c5_empty_candidate_amended :
    (∀ c : Str, compare_versions c [] = true ↔ c ≠ [])
    ∧ (∀ (r : ReleaseData) (v : Str), extract_version r = some v → v ≠ [])
    ∧ (∀ (url cur : Str) (r : ReleaseData), extract_version r = none →
        check_for_updates url cur (FetchResult.release r) = (false, none, none, none)) := by
  refine ⟨?_, ?_, ?_⟩
  · intro c
    rw [compare_versions_eq_bne (Or.inr (by decide))]
    exact bne_iff_ne
  · intro r v h
    simp only [extract_version] at h
    split at h
    · exact search_triple_ne_nil h
    · rename_i hcond
      cases h
      exact fun habs => hcond (Or.inr habs)
  · intro url cur r h
    by_cases hu : url.isEmpty <;> simp [check_for_updates, hu, h]

/-- Witness for C5 at concrete inputs: the comparison function on
`("1.0.5","")`, and `check_for_updates` on a release whose tag is `latest`
and whose title contains no dotted version. -/
theorem c5_empty_candidate_witness :
    compare_versions "1.0.5".data "".data = true
    ∧ check_for_updates "http://u".data "1.0.5".data
        (FetchResult.release ⟨"latest".data, "no version here".data, "".data, [], none⟩) =
        (false, none, none, none) :=
  ⟨(c5_empty_candidate_amended.1 "1.0.5".data).mpr (by decide),
   c5_empty_candidate_amended.2.2 "http://u".data "1.0.5".data
     ⟨"latest".data, "no version here".data, "".data, [], none⟩ (by decide)⟩

/-- C10: `check_for_updates` maps every failure to a returned 4-tuple rather
than an exception: empty update URL, a raised network/HTTP/parse exception,
the odd-status fall-through, an empty release list, and an unextractable
version all yield `(False, None, None, None)`; a resolved version whose
release carries no usable download URL yields
`(False, version, None, notes)`. -/
theorem c10_check_for_updates_failures :
    (∀ (cur : Str) (fetch : FetchResult),
      check_for_updates [] cur fetch = (false, none, none, none))
    ∧ (∀ url cur : Str, check_for_updates url cur FetchResult.raised = (false, none, none, none))
    ∧ (∀ url cur : Str, check_for_updates url cur FetchResult.badStatus = (false, none, none, none))
    ∧ (∀ url cur : Str, check_for_updates url cur FetchResult.emptyList = (false, none, none, none))
    ∧ (∀ (url cur : Str) (r : ReleaseData), extract_version r = none →
        check_for_updates url cur (FetchResult.release r) = (false, none, none, none))
    ∧ (∀ (url cur : Str) (r : ReleaseData) (v : Str), url ≠ [] →
        extract_version r = some v →
        isBlank (pick_download_url r.assets r.zipball_url) = true →
        check_for_updates url cur (FetchResult.release r) =
          (false, some v, none, some r.body)) := by
  refine ⟨?_, ?_, ?_, ?_, ?_, ?_⟩
  · intro cur fetch; rfl
  · intro url cur; by_cases hu : url.isEmpty <;> simp [check_for_updates, hu]
  · intro url cur; by_cases hu : url.isEmpty <;> simp [check_for_updates, hu]
  · intro url cur; by_cases hu : url.isEmpty <;> simp [check_for_updates, hu]
  · intro url cur r h
    by_cases hu : url.isEmpty <;> simp [check_for_updates, hu, h]
  · intro url cur r v hurl hv hblank
    have hu : url.isEmpty = false := by
      cases url with
      | nil => exact absurd rfl hurl
      | cons a l => rfl
    simp [check_for_updates, hu, hv, hblank]

/-- Witness for C10: a release with tag `v1.0.6` and no download URL yields
`(False, some version, None, notes)`. -/
theorem c10_check_for_updates_failures_witness :
    check_for_updates "u".data "1.0.5".data
      (FetchResult.release ⟨"v1.0.6".data, "r".data, "notes".data, [], none⟩) =
      (false, some "1.0.6".data, none, some "notes".data) :=
  c10_check_for_updates_failures.2.2.2.2.2 "u".data "1.0.5".data
    ⟨"v1.0.6".data, "r".data, "notes".data, [], none⟩ "1.0.6".data
    (by decide) (by decide) (by decide)

/-- First path segment collected by the wrapper-folder detection of
`ContentManagerLogic.download_and_extract_mod`:
`parts = name.split('/'); if len(parts) > 1 and parts[0]: top_dirs.add(parts[0])`.
Members with a single segment, and members whose first segment is empty
(a leading `/`), contribute nothing. -/
def firstSegQ (m : Str) : Option Str :=
  match splitCh '/' m with
  | p :: _ :: _ => if p = [] then none else some p
  | _ => none

/-- The set `top_dirs` of distinct collected first segments (insertion into a
Python `set`; only membership and cardinality are ever used). -/
def top_dirs (nl : List Str) : List Str := (nl.filterMap firstSegQ).dedup

/-- The wrapper `root_prefix`: `top_dir + '/'` when exactly one top-level
directory was collected, `''` otherwise. -/
def root_pfx (nl : List Str) : Str :=
  match top_dirs nl with
  | [t] => t ++ "/".data
  | _ => []

/-- Modelled from the spec wording of C6 for comparison: the first path
segment of every member having more than one segment, with no requirement
that the segment be nonempty. -/
def spec_first_seg (m : Str) : Option Str :=
  match splitCh '/' m with
  | p :: _ :: _ => some p
  | _ => none

/-- Modelled from the spec wording of C6: distinct first segments collected
without the nonemptiness guard. -/
def spec_top_segs (nl : List Str) : List Str := (nl.filterMap spec_first_seg).dedup

/-- Modelled from the spec wording of C6: the root prefix computed from
`spec_top_segs`. -/
def spec_root_pfx (nl : List Str) : Str :=
  match spec_top_segs nl with
  | [t] => t ++ "/".data
  | _ => []

theorem firstSegQ_eq_some {m s : Str} :
    firstSegQ m = some s ↔ s ≠ [] ∧ ∃ q rest, splitCh '/' m = s :: q :: rest := by
  unfold firstSegQ
  cases hsp : splitCh '/' m with
  | nil => exact absurd hsp (splitCh_ne_nil _ _)
  | cons p t =>
    cases t with
    | nil =>
      simp only []
      constructor
      · intro h; exact absurd h (by simp)
      · rintro ⟨_, q, rest, habs⟩; simp at habs
    | cons q rest =>
      simp only []
      by_cases hp : p = []
      · simp only [hp, if_true]
        constructor
        · intro h; exact absurd h (by simp)
        · rintro ⟨hne, q2, r2, heq⟩
          cases heq
          exact absurd rfl hne
      · simp only [hp, if_false, Option.some.injEq]
        constructor
        · intro h; subst h; exact ⟨hp, q, rest, rfl⟩
        · rintro ⟨_, q2, r2, heq⟩
          cases heq
          rfl

/-- C6 counterexample: on the member list `["/a/b", "x/c"]` the code
(ignoring the empty first segment of `/a/b`) resolves the wrapper prefix
`"x/"`, while the procedure described by the claim collects two distinct
first segments and resolves `""`. -/
theorem c6_root_detection_counterexample :
    root_pfx ["/a/b".data, "x/c".data] = "x/".data
    ∧ spec_root_pfx ["/a/b".data, "x/c".data] = [] := by decide

/-- C6 (amended): the resolver collects the distinct nonempty first path
segments of all members having more than one segment; if exactly one such
segment exists the root prefix is that segment followed by `/`, otherwise it
is empty; the two examples of the claim hold as stated. -/
theorem c6_root_detection_amended :
    (∀ (nl : List Str) (s : Str),
      s ∈ top_dirs nl ↔ s ≠ [] ∧ ∃ m ∈ nl, ∃ q rest, splitCh '/' m = s :: q :: rest)
    ∧ (∀ (nl : List Str) (t : Str), (∀ s, s ∈ top_dirs nl ↔ s = t) →
        root_pfx nl = t ++ "/".data)
    ∧ (∀ nl : List Str, (¬ ∃ t, ∀ s, s ∈ top_dirs nl ↔ s = t) → root_pfx nl = [])
    ∧ root_pfx ["repo-main/modinfo.json".data, "repo-main/data/x.json".data] = "repo-main/".data
    ∧ root_pfx ["a/x".data, "b/y".data] = [] := by
  refine ⟨?_, ?_, ?_, by decide, by decide⟩
  · intro nl s
    simp only [top_dirs, List.mem_dedup, List.mem_filterMap, firstSegQ_eq_some]
    constructor
    · rintro ⟨m, hm, hne, q, rest, hsp⟩
      exact ⟨hne, m, hm, q, rest, hsp⟩
    · rintro ⟨hne, m, hm, q, rest, hsp⟩
      exact ⟨m, hm, hne, q, rest, hsp⟩
  · intro nl t h
    have hnd : (top_dirs nl).Nodup := List.nodup_dedup _
    have ht : t ∈ top_dirs nl := (h t).mpr rfl
    cases hl : top_dirs nl with
    | nil => rw [hl] at ht; cases ht
    | cons a rest =>
      have ha : a = t := (h a).mp (by rw [hl]; exact List.mem_cons_self a rest)
      cases rest with
      | nil =>
        subst ha
        simp only [root_pfx, hl]
      | cons b rest2 =>
        exfalso
        have hb : b = t := (h b).mp
          (by rw [hl]; exact List.mem_cons_of_mem _ (List.mem_cons_self _ _))
        rw [hl] at hnd
        exact (List.nodup_cons.mp hnd).1 (by rw [ha, ← hb]; exact List.mem_cons_self _ _)
  · intro nl h
    cases hl : top_dirs nl with
    | nil => simp only [root_pfx, hl]
    | cons a rest =>
      cases rest with
      | nil =>
        exact absurd ⟨a, fun s => by rw [hl]; exact List.mem_singleton⟩ h
      | cons b rest2 => simp only [root_pfx, hl]

/-- Witness for C6: a list whose multi-segment members all share the first
segment `w` resolves the prefix `w/`. -/
theorem c6_root_detection_witness :
    root_pfx ["w/a".data, "w/b".data] = "w/".data :=
  c6_root_detection_amended.2.1 ["w/a".data, "w/b".data] "w".data
    (by
      intro s
      rw [show top_dirs ["w/a".data, "w/b".data] = ["w".data] from by decide]
      exact List.mem_singleton)

/-- Python `s.rstrip('/')`. -/
def rstrip_slash (s : Str) : Str := (s.reverse.dropWhile (fun c => c = '/')).reverse

/-- The member-selection path built by
`ContentManagerLogic.download_and_extract_mod`: the wrapper prefix, extended
by `mod_subdir.rstrip('/') + '/'` when a subdirectory was requested. -/
def effective_pfx (nl : List Str) (sub : Str) : Str :=
  root_pfx nl ++ (if sub.isEmpty then [] else rstrip_slash sub ++ "/".data)

/-- `members = [m for m in namelist if m.startswith(root_prefix)]` in
logic.py. -/
def logic_members (nl : List Str) (sub : Str) : List Str :=
  nl.filter (fun m => (effective_pfx nl sub).isPrefixOf m)

/-- The logic-layer installer raises `FileNotFoundError` exactly when the
selected member list is empty (`if not members: raise ...`). -/
def logic_raises (nl : List Str) (sub : Str) : Bool := (logic_members nl sub).isEmpty

/-- `members = [m for m in ... if m.startswith(subdir + '/') or m == subdir]`
in the subdirectory branch of `ModManagerApp._download_and_extract_mod`. -/
def app_subdir_members (nl : List Str) (sub : Str) : List Str :=
  nl.filter (fun m => (sub ++ "/".data).isPrefixOf m || m == sub)

/-- The app-layer subdirectory branch raises `FileNotFoundError` exactly when
no member matches the requested subdirectory. -/
def app_subdir_raises (nl : List Str) (sub : Str) : Bool := (app_subdir_members nl sub).isEmpty

/-- The candidate content root contributed by one archive member in the
auto-detection branch of `ModManagerApp._download_and_extract_mod`:
for a member whose name ends with `modinfo.json` (note: `endswith`, not an
exact-name test), the parent path `'/'.join(parts[:-1])`, or the member name
itself when it has a single segment. -/
def mod_folder_of (file : Str) : Option Str :=
  if ("modinfo.json".data).isSuffixOf file then
    match splitCh '/' file with
    | [p] => some p
    | ps => some (List.intercalate "/".data ps.dropLast)
  else none

/-- The Python set `mod_folders` of candidate content roots (insertion
order is irrelevant: only membership and emptiness are used). -/
def mod_folders (nl : List Str) : List Str := (nl.filterMap mod_folder_of).dedup

/-- The auto-detection branch raises `FileNotFoundError` exactly when no
candidate was found (`if not mod_folders: raise ...`). -/
def auto_raises (nl : List Str) : Bool := (mod_folders nl).isEmpty

/-- Modelled from the spec wording of C7/C8 for comparison: the last path
segment of a member name. -/
def last_seg (m : Str) : Str := ((splitCh '/' m).getLast?).getD []

/-- Modelled from the spec wording of C7/C8 for comparison: the members whose
file name is exactly `modinfo.json`. -/
def named_exactly (nl : List Str) : List Str :=
  nl.filter (fun m => last_seg m == "modinfo.json".data)

theorem mod_folder_of_eq_none {m : Str} :
    mod_folder_of m = none ↔ ¬ ("modinfo.json".data <:+ m) := by
  unfold mod_folder_of
  by_cases hs : ("modinfo.json".data).isSuffixOf m
  · simp only [hs, if_true]
    constructor
    · intro h
      cases hsp : splitCh '/' m with
      | nil => exact absurd hsp (splitCh_ne_nil _ _)
      | cons p t =>
        rw [hsp] at h
        cases t with
        | nil => simp at h
        | cons q r => simp at h
    · intro hns
      exact absurd (List.isSuffixOf_iff_suffix.mp hs) hns
  · simp only [hs, if_false]
    exact iff_of_true rfl (fun hsuf => hs (List.isSuffixOf_iff_suffix.mpr hsuf))

/-- C7 counterexample: the archive `["pack/foo_modinfo.json"]` contains zero
members named exactly `modinfo.json`, yet auto-detection does not raise the
not-found error (the `endswith` test accepts `foo_modinfo.json`), so the
failure cases of the claim are not exhaustive. -/
theorem c7_not_found_counterexample :
    auto_raises ["pack/foo_modinfo.json".data] = false
    ∧ named_exactly ["pack/foo_modinfo.json".data] = [] := by decide

/-- C7 (amended): each installer raises its not-found error exactly when its
own selection is empty — the logic-layer installer when no member starts with
the resolved prefix (wrapper prefix plus requested subpath), the app-layer
subdirectory branch when no member matches the requested subpath, and
auto-detection when no member name ends with `modinfo.json` (so an archive
whose only marker file is e.g. `foo_modinfo.json` does not raise, although it
contains no member named exactly `modinfo.json`). -/
theorem c7_not_found_amended :
    (∀ (nl : List Str) (sub : Str),
      logic_raises nl sub = true ↔ ∀ m ∈ nl, ¬ (effective_pfx nl sub <+: m))
    ∧ (∀ (nl : List Str) (sub : Str),
      app_subdir_raises nl sub = true ↔ ∀ m ∈ nl, ¬ (sub ++ "/".data <+: m) ∧ m ≠ sub)
    ∧ (∀ nl : List Str,
      auto_raises nl = true ↔ ∀ m ∈ nl, ¬ ("modinfo.json".data <:+ m)) := by
  refine ⟨?_, ?_, ?_⟩
  · intro nl sub
    simp [logic_raises, List.isEmpty_iff, logic_members, List.filter_eq_nil_iff,
      List.isPrefixOf_iff_prefix]
  · intro nl sub
    simp [app_subdir_raises, List.isEmpty_iff, app_subdir_members,
      List.filter_eq_nil_iff, List.isPrefixOf_iff_prefix, not_or]
  · intro nl
    simp only [auto_raises, List.isEmpty_iff, mod_folders, List.dedup_eq_nil,
      List.filterMap_eq_nil_iff]
    constructor
    · intro h m hm
      exact mod_folder_of_eq_none.mp (h m hm)
    · intro h m hm
      exact mod_folder_of_eq_none.mpr (h m hm)

/-- Witness for C7: on the singleton archive `["data/readme.txt"]`, requesting
the subpath `mods` matches nothing, and the app-layer subdirectory branch
raises. -/
theorem c7_not_found_witness :
    app_subdir_raises ["data/readme.txt".data] "mods".data = true :=
  (c7_not_found_amended.2.1 ["data/readme.txt".data] "mods".data).mpr
    (by
      intro m hm
      rw [List.mem_singleton] at hm
      subst hm
      constructor
      · intro hpre
        exact absurd (List.isPrefixOf_iff_prefix.mpr hpre) (by decide)
      · decide)

/-- `folder_name = mod_folder.split('/')[-1]` — the destination folder name
of one auto-detected candidate. -/
def folder_name (f : Str) : Str := ((splitCh '/' f).getLast?).getD []

/-- `members = [m for m in namelist if m == mod_folder or
m.startswith(mod_folder + '/')]` for one candidate. -/
def candidate_members (nl : List Str) (f : Str) : List Str :=
  nl.filter (fun m => m == f || (f ++ "/".data).isPrefixOf m)

/-- `relative_path = member[len(mod_folder):].lstrip('/')`. -/
def rel_under (f m : Str) : Str := (m.drop f.length).dropWhile (fun c => c = '/')

/-- The files written for one auto-detected candidate, as pairs
(member, path relative to the install root): directory entries (members
ending in `/`) only create directories and are skipped; every other member
is written to `folder_name/relative_path`
(`os.path.join(dest_folder, relative_path)`). -/
def candidate_writes (nl : List Str) (f : Str) : List (Str × Str) :=
  (candidate_members nl f).filterMap (fun m =>
    if m.getLast? = some '/' then none
    else some (m, folder_name f ++ "/".data ++ rel_under f m))

theorem mod_folder_of_eq_some {m f : Str} :
    mod_folder_of m = some f ↔
      ("modinfo.json".data <:+ m) ∧
      ((∃ p, splitCh '/' m = [p] ∧ f = p) ∨
       (2 ≤ (splitCh '/' m).length ∧
        f = List.intercalate "/".data (splitCh '/' m).dropLast)) := by
  unfold mod_folder_of
  by_cases hs : ("modinfo.json".data).isSuffixOf m
  · simp only [hs, if_true]
    cases hsp : splitCh '/' m with
    | nil => exact absurd hsp (splitCh_ne_nil _ _)
    | cons p t =>
      cases t with
      | nil =>
        simp only [Option.some.injEq]
        constructor
        · intro h
          exact ⟨List.isSuffixOf_iff_suffix.mp hs, Or.inl ⟨p, rfl, h.symm⟩⟩
        · rintro ⟨_, ⟨p2, heq, hf⟩ | ⟨hlen, _⟩⟩
          · cases heq; exact hf.symm
          · simp at hlen
      | cons q r =>
        simp only [Option.some.injEq]
        constructor
        · intro h
          exact ⟨List.isSuffixOf_iff_suffix.mp hs, Or.inr ⟨by simp, h.symm⟩⟩
        · rintro ⟨_, ⟨p2, heq, hf⟩ | ⟨_, hf⟩⟩
          · simp at heq
          · exact hf.symm
  · simp only [hs, if_false]
    constructor
    · intro h; exact absurd h (by simp)
    · rintro ⟨hsuf, _⟩
      exact absurd (List.isSuffixOf_iff_suffix.mpr hsuf) hs

/-- C8 counterexample: the archive `["dir/extra_modinfo.json"]` contains no
file named `modinfo.json`, yet the installer (which tests
`endswith("modinfo.json")`) treats `dir` as a candidate content root. -/
theorem c8_auto_detect_counterexample :
    mod_folders ["dir/extra_modinfo.json".data] = ["dir".data]
    ∧ named_exactly ["dir/extra_modinfo.json".data] = [] := by decide

/-- C8 (amended): auto-detection scans the archive for members whose name
ends with `modinfo.json` (not only files named exactly `modinfo.json`); the
candidate content root contributed by a match is the directory containing it
(the member name itself for a top-level single-segment match), and every
candidate is installed separately, its members written under a destination
folder named by the candidate path's trailing segment — as exhibited on a
two-package archive. -/
theorem c8_auto_detect_amended :
    (∀ (nl : List Str) (f : Str),
      f ∈ mod_folders nl ↔ ∃ m ∈ nl,
        ("modinfo.json".data <:+ m) ∧
        ((∃ p, splitCh '/' m = [p] ∧ f = p) ∨
         (2 ≤ (splitCh '/' m).length ∧
          f = List.intercalate "/".data (splitCh '/' m).dropLast)))
    ∧ mod_folders ["w/Mod A/modinfo.json".data, "w/Mod A/data/items.json".data,
        "w/Mod B/modinfo.json".data] = ["w/Mod A".data, "w/Mod B".data]
    ∧ candidate_writes ["w/Mod A/modinfo.json".data, "w/Mod A/data/items.json".data,
        "w/Mod B/modinfo.json".data] "w/Mod A".data =
        [("w/Mod A/modinfo.json".data, "Mod A/modinfo.json".data),
         ("w/Mod A/data/items.json".data, "Mod A/data/items.json".data)]
    ∧ candidate_writes ["w/Mod A/modinfo.json".data, "w/Mod A/data/items.json".data,
        "w/Mod B/modinfo.json".data] "w/Mod B".data =
        [("w/Mod B/modinfo.json".data, "Mod B/modinfo.json".data)] := by
  refine ⟨?_, by decide, by decide, by decide⟩
  intro nl f
  simp only [mod_folders, List.mem_dedup, List.mem_filterMap, mod_folder_of_eq_some]

/-- Witness for C8: membership of the candidate `dir` for the archive
`["dir/modinfo.json"]`, through the characterization. -/
theorem c8_auto_detect_witness :
    "dir".data ∈ mod_folders ["dir/modinfo.json".data] :=
  (c8_auto_detect_amended.1 ["dir/modinfo.json".data] "dir".data).mpr
    ⟨"dir/modinfo.json".data, by decide, by decide,
     Or.inr ⟨by decide, by decide⟩⟩

/-- The profile payload stored under each profile name
(`{"mods": [...], "mod_install_dir": ...}`); its contents are irrelevant to
the deletion logic. -/
structure ProfileData where
  mods : List Str
  mod_install_dir : Str
deriving DecidableEq, Inhabited

/-- `ContentManagerLogic.delete_profile`: refuse when at most one profile
exists; otherwise delete the named profile if present (`del`), and when it
was the current one, make the first remaining profile current
(`next(iter(self.profiles.keys()), None)`).  The insertion-ordered Python
dict is modeled as an association list. -/
def delete_profile (profiles : List (Str × ProfileData)) (current : Option Str)
    (name : Str) : Bool × List (Str × ProfileData) × Option Str :=
  if profiles.length ≤ 1 then (false, profiles, current)
  else if (profiles.map Prod.fst).elem name then
    let remaining := profiles.eraseP (fun p => p.1 == name)
    let current2 := if current = some name then (remaining.map Prod.fst).head? else current
    (true, remaining, current2)
  else (false, profiles, current)

/-- C9: with at most one profile, `delete_profile` returns `False` and
changes nothing; with more than one profile, deleting an existing profile
succeeds, leaves a nonempty profile map, keeps the current profile unchanged
when a different profile was deleted, and otherwise reassigns it to one of
the remaining profiles — so the profile set never becomes empty and the
current profile names an existing profile. -/
theorem c9_delete_profile :
    ∀ (profiles : List (Str × ProfileData)) (current : Option Str) (name : Str),
      (profiles.length ≤ 1 →
        delete_profile profiles current name = (false, profiles, current))
      ∧ (1 < profiles.length → name ∈ profiles.map Prod.fst →
          (delete_profile profiles current name).1 = true
          ∧ (delete_profile profiles current name).2.1 ≠ []
          ∧ (current = some name → ∃ k,
              (delete_profile profiles current name).2.2 = some k
              ∧ k ∈ (delete_profile profiles current name).2.1.map Prod.fst)
          ∧ (current ≠ some name →
              (delete_profile profiles current name).2.2 = current)) := by
  intro profiles current name
  constructor
  · intro hle
    simp [delete_profile, hle]
  · intro hlt hmem
    have hnle : ¬ profiles.length ≤ 1 := by omega
    have helem : (profiles.map Prod.fst).elem name = true := List.elem_iff.mpr hmem
    have hpmem : ∃ p ∈ profiles, (fun p : Str × ProfileData => p.1 == name) p = true := by
      rw [List.mem_map] at hmem
      obtain ⟨p, hp, hp1⟩ := hmem
      exact ⟨p, hp, by simp [hp1]⟩
    obtain ⟨p0, hp0, hp0n⟩ := hpmem
    have hlen : (profiles.eraseP (fun p => p.1 == name)).length = profiles.length - 1 :=
      List.length_eraseP_of_mem hp0 hp0n
    have hrem : profiles.eraseP (fun p => p.1 == name) ≠ [] := by
      intro habs
      rw [habs] at hlen
      simp at hlen
      omega
    have hd : delete_profile profiles current name =
        (true, profiles.eraseP (fun p => p.1 == name),
          if current = some name
          then ((profiles.eraseP (fun p => p.1 == name)).map Prod.fst).head?
          else current) := by
      unfold delete_profile
      rw [if_neg hnle, if_pos helem]
    refine ⟨by rw [hd], by rw [hd]; exact hrem, ?_, ?_⟩
    · intro hcur
      rw [hd]
      simp only [if_pos hcur]
      cases hr : profiles.eraseP (fun p => p.1 == name) with
      | nil => exact absurd hr hrem
      | cons q rest =>
        exact ⟨q.1, rfl, by simp⟩
    · intro hcur
      rw [hd]
      simp only [if_neg hcur]

/-- A concrete empty profile payload for the C9 witness. -/
def pdata0 : ProfileData := ⟨[], []⟩

/-- Witness for C9 on a concrete two-profile map: deleting the current
profile `a` succeeds and makes the remaining profile `b` current. -/
theorem c9_delete_profile_witness :
    (delete_profile [("a".data, pdata0), ("b".data, pdata0)] (some "a".data) "a".data).1 = true
    ∧ (delete_profile [("a".data, pdata0), ("b".data, pdata0)]
        (some "a".data) "a".data).2.1 ≠ []
    ∧ ∃ k, (delete_profile [("a".data, pdata0), ("b".data, pdata0)]
        (some "a".data) "a".data).2.2 = some k
      ∧ k ∈ (delete_profile [("a".data, pdata0), ("b".data, pdata0)]
        (some "a".data) "a".data).2.1.map Prod.fst := by
  have h := (c9_delete_profile [("a".data, pdata0), ("b".data, pdata0)]
    (some "a".data) "a".data).2 (by decide) (by decide)
  exact ⟨h.1, h.2.1, h.2.2.1 rfl⟩

/-- A top-level entry of the installation root (or of the extracted payload
root): a file with its byte content, or a directory.  Directory contents are
modeled one level deep (entry name to file bytes): every operation of
`perform_update` either copies a whole top-level entry (`copytree` /
`copy2` / `rmtree`), or inserts a single file at the top of an existing
directory (`shutil.copy2` with a directory destination), so deeper structure
is never inspected. -/
inductive FsEntry where
  | file (content : Str)
  | dir (entries : List (Str × Str))
deriving DecidableEq

/-- The top level of a directory tree, as a map from entry names to
entries. -/
abbrev FS := Str → Option FsEntry

def emptyFS : FS := fun _ => none

def setEntry (fs : FS) (name : Str) (e : FsEntry) : FS :=
  fun n => if n = name then some e else fs n

/-- Insertion/overwrite of a file inside a one-level directory listing
(the effect of `shutil.copy2(src, dst)` when `dst` is a directory: the file
lands at `dst/basename(src)`). -/
def setAssoc (l : List (Str × Str)) (k v : Str) : List (Str × Str) :=
  if (l.map Prod.fst).elem k then l.map (fun p => if p.1 = k then (k, v) else p)
  else l ++ [(k, v)]

/-- `UPDATE_LOG_FILE = "update_history.log"` from updater.py. -/
def UPDATE_LOG_FILE : Str := "update_history.log".data

/-- The regular application log `mod_debug.log`: every module that drives
the updater configures `logging.basicConfig(filename='mod_debug.log', ...)`
(selector.py, app.py, mod_manager.py), so the `logging.info` calls inside
`perform_update` append to this file. -/
def MOD_DEBUG_LOG : Str := "mod_debug.log".data

/-- `PRESERVED_FILES = ["mod_debug.log", "update_history.log"]` from
updater.py. -/
def PRESERVED_FILES : List Str := [ MOD_DEBUG_LOG, UPDATE_LOG_FILE]

/-- `BASE_PRESERVED_DIRS = ["cfg", "mods"]` from updater.py (the computed
preserved-directory list extends this with existing config paths; the model
takes the computed list as a parameter). -/
def BASE_PRESERVED_DIRS : List Str := ["cfg".data, "mods".data]

/-- Oracle supplying the timestamp and message text of the `k`-th
`_log_update` call; the exact text (timestamps, sizes) is irrelevant to every
property proved here, only the nonempty framing of each appended line
matters. -/
structure LogOracle where
  ts : Nat → Str
  msg : Nat → Str

/-- The line `f"[{timestamp}] {message}\n"` that `_log_update` appends to
the update history log. -/
def logLine (o : LogOracle) (k : Nat) : Str :=
  '[' :: (o.ts k ++ (']' :: (' ' :: (o.msg k ++ ['\n']))))

/-- The line the `logging.info(message)` call of `_log_update` appends to
the configured application log (`logging.basicConfig` default format
`levelname:name:message`). -/
def debugLine (o : LogOracle) (k : Nat) : Str :=
  "INFO:root:".data ++ o.msg k ++ ['\n']

/-- Append one line to the file at `name`, creating it when absent; when a
directory of that name is in the way the write fails and nothing changes
(for the update log, `open` raises and `_log_update`'s own `except` swallows
the error; for the app log, the logging handler swallows emit errors). -/
def appendAt (name line : Str) (fs : FS) : FS :=
  match fs name with
  | some (FsEntry.dir _) => fs
  | some (FsEntry.file c) => setEntry fs name (FsEntry.file (c ++ line))
  | none => setEntry fs name (FsEntry.file line)

/-- One `_log_update` call: `logging.info(message)` appends a line to the
configured app log `mod_debug.log`, then a line is appended to
`update_history.log`.  The counter selects the next oracle line.  (The
handler's open descriptor is modeled as writing at the `mod_debug.log`
path; module-logger calls outside `_log_update`, e.g. in
`_get_preserved_dirs`, would only append further app-log lines and are not
modeled separately.) -/
def appendLog (o : LogOracle) (st : FS × Nat) : FS × Nat :=
  (appendAt UPDATE_LOG_FILE (logLine o st.2)
    (appendAt MOD_DEBUG_LOG (debugLine o st.2) st.1), st.2 + 1)

/-- One iteration of the step-3 `PRESERVED_DIRS` backup loop, on the state
(working tree, backup tree, log counter): copy the entry into the backup
when it exists (`copytree` for directories — which raises if the backup
destination already exists, e.g. for a duplicated list entry — `copy2` for
files), then log; log a skip line when it does not exist.  `none` models an
exception (re-raised by the loop's `except` after logging). -/
def backupDirStep (o : LogOracle) (stp : FS × FS × Nat) (item : Str) :
    Option (FS × FS × Nat) :=
  match stp.1 item with
  | some (FsEntry.dir d) =>
      match stp.2.1 item with
      | none =>
          let s2 := appendLog o (stp.1, stp.2.2)
          some (s2.1, setEntry stp.2.1 item (FsEntry.dir d), s2.2)
      | some _ => none
  | some (FsEntry.file c) =>
      let s2 := appendLog o (stp.1, stp.2.2)
      some (s2.1, setEntry stp.2.1 item (FsEntry.file c), s2.2)
  | none =>
      let s2 := appendLog o (stp.1, stp.2.2)
      some (s2.1, stp.2.1, s2.2)

def backupDirsLoop (o : LogOracle) (dirs : List Str) (st : FS × FS × Nat) :
    Option (FS × FS × Nat) :=
  dirs.foldlM (backupDirStep o) st

/-- One iteration of the step-3 `PRESERVED_FILES` backup loop:
`shutil.copy2` the file into the backup and log; `copy2` raises on a
directory source, aborting the update. -/
def backupFileStep (o : LogOracle) (stp : FS × FS × Nat) (item : Str) :
    Option (FS × FS × Nat) :=
  match stp.1 item with
  | some (FsEntry.file c) =>
      let s2 := appendLog o (stp.1, stp.2.2)
      some (s2.1, setEntry stp.2.1 item (FsEntry.file c), s2.2)
  | some (FsEntry.dir _) => none
  | none => some stp

def backupFilesLoop (o : LogOracle) (files : List Str) (st : FS × FS × Nat) :
    Option (FS × FS × Nat) :=
  files.foldlM (backupFileStep o) st

/-- One iteration of the step-5 install loop over the extracted payload
entries: skip entries named in `PRESERVED_DIRS`; for a payload directory,
`rmtree` any existing destination (raising on a file destination) and
`copytree`; for a payload file, `copy2` — which drops the file inside an
existing same-named directory instead of replacing it. -/
def installStep (dirs : List Str) (fs : FS) (p : Str × FsEntry) : Option FS :=
  if p.1 ∈ dirs then some fs
  else
    match p.2 with
    | FsEntry.dir d =>
        match fs p.1 with
        | some (FsEntry.file _) => none
        | _ => some (setEntry fs p.1 (FsEntry.dir d))
    | FsEntry.file c =>
        match fs p.1 with
        | some (FsEntry.dir dd) => some (setEntry fs p.1 (FsEntry.dir (setAssoc dd p.1 c)))
        | _ => some (setEntry fs p.1 (FsEntry.file c))

def installLoop (source : List (Str × FsEntry)) (dirs : List Str) (fs : FS) : Option FS :=
  source.foldlM (installStep dirs) fs

/-- One iteration of the step-6 `PRESERVED_DIRS` restore loop: when the
backup holds the entry, remove any destination (`rmtree` / `os.remove`),
copy the backup entry back, and log. -/
def restoreDirStep (o : LogOracle) (bk : FS) (st : FS × Nat) (item : Str) : FS × Nat :=
  match bk item with
  | some e => appendLog o (setEntry st.1 item e, st.2)
  | none => st

def restoreDirsLoop (o : LogOracle) (bk : FS) (dirs : List Str) (st : FS × Nat) : FS × Nat :=
  dirs.foldl (restoreDirStep o bk) st

/-- One iteration of the step-6 `PRESERVED_FILES` restore loop:
`shutil.copy2(backup, dst)` and log.  `copy2` raises on a directory source
(aborting), and drops the file inside `dst` when `dst` is a directory the
new payload shipped under the preserved file's name. -/
def restoreFileStep (o : LogOracle) (bk : FS) (st : FS × Nat) (item : Str) :
    Option (FS × Nat) :=
  match bk item with
  | none => some st
  | some (FsEntry.dir _) => none
  | some (FsEntry.file c) =>
      match st.1 item with
      | some (FsEntry.dir d) =>
          some (appendLog o (setEntry st.1 item (FsEntry.dir (setAssoc d item c)), st.2))
      | _ => some (appendLog o (setEntry st.1 item (FsEntry.file c), st.2))

def restoreFilesLoop (o : LogOracle) (bk : FS) (files : List Str) (st : FS × Nat) :
    Option (FS × Nat) :=
  files.foldlM (restoreFileStep o bk) st

/-- The filesystem effect of a completed run of `Updater.perform_update`
(steps 3-7), as a function of the initial installation root, the extracted
payload root listing (steps 1-2: download, extraction and single-wrapper
unwrap), the computed `PRESERVED_DIRS` list and the log oracle.

The ten leading log calls are the five header lines and the five progress
lines of steps 1-3; step 4 logs its header and removes every top-level
entry (the nominal run: per-item removal failures are logged-and-ignored by
the source and not modeled); step 5 logs its header and installs the payload;
step 6 logs its header and restores; the three trailing calls are the step-7
header and the two completion lines.  Step 7 otherwise only reads: its
fallback `_save_version` write is reached only when reading `version.json`
failed, and then its own identical read fails first, so it never writes on
this path.  `none` models a run that raises (and is caught by the outer
`except`, returning `False`) instead of completing. -/
def perform_update (root : FS) (source : List (Str × FsEntry)) (dirs : List Str)
    (o : LogOracle) : Option FS :=
  let st := (appendLog o)^[10] (root, 0)
  (backupDirsLoop o dirs (st.1, emptyFS, st.2)).bind (fun s1 =>
  (backupFilesLoop o PRESERVED_FILES s1).bind (fun s2 =>
  let s5 := appendLog o (emptyFS, (appendLog o (s2.1, s2.2.2)).2)
  (installLoop source dirs s5.1).bind (fun fs6 =>
  let s8 := restoreDirsLoop o s2.2.1 dirs (appendLog o (fs6, s5.2))
  (restoreFilesLoop o s2.2.1 PRESERVED_FILES s8).bind (fun s9 =>
  some ((appendLog o)^[3] s9).1))))

/-- A run of `Updater.perform_update` in which an exception occurs right
after the step-4 purge (at the first copy of step 5): steps 3-4 run as in
`perform_update`, step 5 logs its header, the injected fault raises, and
control reaches the outer `except` handler, which only logs — three
`_log_update` lines (error, traceback, separator) followed by two
`logging.error` lines that reach the app log alone — and returns `False`:
no restore step runs, and the backup directory is discarded with the
enclosing temporary directory.  `none` models a run that already failed
before the injection point. -/
def perform_update_faulted (root : FS) (dirs : List Str) (o : LogOracle) :
    Option (Bool × FS) :=
  let st := (appendLog o)^[10] (root, 0)
  (backupDirsLoop o dirs (st.1, emptyFS, st.2)).bind (fun s1 =>
  (backupFilesLoop o PRESERVED_FILES s1).bind (fun s2 =>
  let s5 := appendLog o (emptyFS, (appendLog o (s2.1, s2.2.2)).2)
  let s6 := (appendLog o)^[3] s5
  some (false, appendAt MOD_DEBUG_LOG (debugLine o (s6.2 + 1))
    (appendAt MOD_DEBUG_LOG (debugLine o s6.2) s6.1))))

/-- The optional entry is not a directory. -/
def NotDirAt (x : Option FsEntry) : Prop := ∀ d, x ≠ some (FsEntry.dir d)

/-- The optional entry is a file whose content extends `b`. -/
def ExtFile (b : Str) (x : Option FsEntry) : Prop :=
  ∃ s, x = some (FsEntry.file (b ++ s))

theorem setEntry_self (fs : FS) (m : Str) (e : FsEntry) : setEntry fs m e m = some e := by
  simp [setEntry]

theorem setEntry_ne (fs : FS) (e : FsEntry) {n m : Str} (h : n ≠ m) :
    setEntry fs m e n = fs n := by
  simp [setEntry, h]

theorem appendAt_ne {fs : FS} {line : Str} {n name : Str} (h : n ≠ name) :
    appendAt name line fs n = fs n := by
  unfold appendAt
  cases hu : fs name with
  | none => dsimp only; rw [setEntry_ne _ _ h]
  | some e =>
    cases e with
    | file c => dsimp only; rw [setEntry_ne _ _ h]
    | dir d => rfl

theorem appendAt_notdir {fs : FS} {line : Str} {n name : Str}
    (h : NotDirAt (fs n)) : NotDirAt ((appendAt name line fs) n) := by
  by_cases hn : n = name
  · subst hn
    unfold appendAt
    cases hu : fs n with
    | none => intro d; dsimp only; rw [setEntry_self]; simp
    | some e =>
      cases e with
      | file c => intro d; dsimp only; rw [setEntry_self]; simp
      | dir d2 => exact absurd hu (h d2)
  · intro d
    rw [appendAt_ne hn]
    exact h d

theorem appendAt_ext {fs : FS} {line : Str} {n name : Str} {b : Str}
    (h : ExtFile b (fs n)) : ExtFile b ((appendAt name line fs) n) := by
  by_cases hn : n = name
  · subst hn
    obtain ⟨s, hs⟩ := h
    unfold appendAt
    rw [hs]
    dsimp only
    exact ⟨s ++ line, by rw [setEntry_self, List.append_assoc]⟩
  · rw [appendAt_ne hn]
    exact h

theorem appendLog_fst_ne {o : LogOracle} {st : FS × Nat} {n : Str}
    (h : n ≠ MOD_DEBUG_LOG ∧ n ≠ UPDATE_LOG_FILE) : (appendLog o st).1 n = st.1 n := by
  unfold appendLog
  dsimp only
  rw [appendAt_ne h.2, appendAt_ne h.1]

theorem appendLog_iter_fst_ne {o : LogOracle} {n : Str}
    (h : n ≠ MOD_DEBUG_LOG ∧ n ≠ UPDATE_LOG_FILE) :
    ∀ (m : Nat) (st : FS × Nat), ((appendLog o)^[m] st).1 n = st.1 n
  | 0, st => rfl
  | m + 1, st => by
    rw [Function.iterate_succ_apply,
      appendLog_iter_fst_ne h m (appendLog o st)]
    exact appendLog_fst_ne h

theorem appendLog_notdir {o : LogOracle} {st : FS × Nat} {n : Str}
    (h : NotDirAt (st.1 n)) :
    NotDirAt ((appendLog o st).1 n) := by
  unfold appendLog
  dsimp only
  exact appendAt_notdir (appendAt_notdir h)

theorem appendLog_ext {o : LogOracle} {st : FS × Nat} {n : Str} {b : Str}
    (h : ExtFile b (st.1 n)) :
    ExtFile b ((appendLog o st).1 n) := by
  unfold appendLog
  dsimp only
  exact appendAt_ext (appendAt_ext h)

theorem appendLog_iter_ext {o : LogOracle} {n : Str} {b : Str} :
    ∀ (m : Nat) (st : FS × Nat), ExtFile b (st.1 n) →
      ExtFile b (((appendLog o)^[m] st).1 n)
  | 0, _, h => h
  | m + 1, st, h => by
    rw [Function.iterate_succ_apply]
    exact appendLog_iter_ext m _ (appendLog_ext h)

theorem backupDirStep_cases {o : LogOracle} {st st' : FS × FS × Nat} {item : Str}
    (h : backupDirStep o st item = some st') :
    (∃ e, st.1 item = some e
      ∧ st'.1 = (appendLog o (st.1, st.2.2)).1
      ∧ st'.2.1 = setEntry st.2.1 item e
      ∧ st'.2.2 = (appendLog o (st.1, st.2.2)).2)
    ∨ (st.1 item = none
      ∧ st'.1 = (appendLog o (st.1, st.2.2)).1
      ∧ st'.2.1 = st.2.1
      ∧ st'.2.2 = (appendLog o (st.1, st.2.2)).2) := by
  unfold backupDirStep at h
  cases hi : st.1 item with
  | none =>
    rw [hi] at h
    cases h
    exact Or.inr ⟨rfl, rfl, rfl, rfl⟩
  | some e =>
    rw [hi] at h
    cases e with
    | file c =>
      cases h
      exact Or.inl ⟨FsEntry.file c, rfl, rfl, rfl, rfl⟩
    | dir d =>
      dsimp only at h
      cases hb : st.2.1 item with
      | none =>
        rw [hb] at h
        cases h
        exact Or.inl ⟨FsEntry.dir d, rfl, rfl, rfl, rfl⟩
      | some e2 =>
        rw [hb] at h
        exact absurd h (by simp)

theorem backupFileStep_cases {o : LogOracle} {st st' : FS × FS × Nat} {item : Str}
    (h : backupFileStep o st item = some st') :
    (∃ c, st.1 item = some (FsEntry.file c)
      ∧ st'.1 = (appendLog o (st.1, st.2.2)).1
      ∧ st'.2.1 = setEntry st.2.1 item (FsEntry.file c)
      ∧ st'.2.2 = (appendLog o (st.1, st.2.2)).2)
    ∨ (st.1 item = none ∧ st' = st) := by
  unfold backupFileStep at h
  cases hi : st.1 item with
  | none =>
    rw [hi] at h
    cases h
    exact Or.inr ⟨rfl, rfl⟩
  | some e =>
    rw [hi] at h
    cases e with
    | file c =>
      cases h
      exact Or.inl ⟨c, rfl, rfl, rfl, rfl⟩
    | dir d => exact absurd h (by simp)

theorem backupFileStep_dir_none {o : LogOracle} {st : FS × FS × Nat} {item : Str}
    {d : List (Str × Str)} (hi : st.1 item = some (FsEntry.dir d)) :
    backupFileStep o st item = none := by
  unfold backupFileStep
  rw [hi]

theorem backupDirsLoop_fst_ne {o : LogOracle} {n : Str} (hn : n ≠ MOD_DEBUG_LOG ∧ n ≠ UPDATE_LOG_FILE) :
    ∀ (dirs : List Str) (st r : FS × FS × Nat),
      backupDirsLoop o dirs st = some r → r.1 n = st.1 n
  | [], st, r, h => by
    simp only [backupDirsLoop, List.foldlM_nil] at h
    cases h
    rfl
  | item :: rest, st, r, h => by
    simp only [backupDirsLoop, List.foldlM_cons] at h
    cases hb : backupDirStep o st item with
    | none => rw [hb] at h; exact absurd h (by simp)
    | some st' =>
      rw [hb] at h
      replace h : backupDirsLoop o rest st' = some r := h
      have hr := backupDirsLoop_fst_ne hn rest st' r h
      rcases backupDirStep_cases hb with ⟨e, _, hf, _, _⟩ | ⟨_, hf, _, _⟩ <;>
        rw [hr, hf, appendLog_fst_ne hn]

theorem backupDirsLoop_bk_notmem {o : LogOracle} {n : Str} :
    ∀ (dirs : List Str) (st r : FS × FS × Nat), backupDirsLoop o dirs st = some r →
      n ∉ dirs → r.2.1 n = st.2.1 n
  | [], st, r, h, _ => by
    simp only [backupDirsLoop, List.foldlM_nil] at h
    cases h
    rfl
  | item :: rest, st, r, h, hnm => by
    simp only [backupDirsLoop, List.foldlM_cons] at h
    cases hb : backupDirStep o st item with
    | none => rw [hb] at h; exact absurd h (by simp)
    | some st' =>
      rw [hb] at h
      replace h : backupDirsLoop o rest st' = some r := h
      have hni : n ≠ item := fun habs => hnm (habs ▸ List.mem_cons_self _ _)
      have hnr : n ∉ rest := fun habs => hnm (List.mem_cons_of_mem _ habs)
      have hr := backupDirsLoop_bk_notmem rest st' r h hnr
      rcases backupDirStep_cases hb with ⟨e, _, _, hbk, _⟩ | ⟨_, _, hbk, _⟩
      · rw [hr, hbk, setEntry_ne _ _ hni]
      · rw [hr, hbk]

theorem backupDirsLoop_bk_mem {o : LogOracle} {n : Str} {e : FsEntry}
    (hn : n ≠ MOD_DEBUG_LOG ∧ n ≠ UPDATE_LOG_FILE) :
    ∀ (dirs : List Str) (st r : FS × FS × Nat), backupDirsLoop o dirs st = some r →
      n ∈ dirs → st.1 n = some e → r.2.1 n = some e
  | [], _, _, _, hm, _ => absurd hm (List.not_mem_nil n)
  | item :: rest, st, r, h, hm, he => by
    simp only [backupDirsLoop, List.foldlM_cons] at h
    cases hb : backupDirStep o st item with
    | none => rw [hb] at h; exact absurd h (by simp)
    | some st' =>
      rw [hb] at h
      replace h : backupDirsLoop o rest st' = some r := h
      have hfst : st'.1 n = some e := by
        rcases backupDirStep_cases hb with ⟨e2, _, hf, _, _⟩ | ⟨_, hf, _, _⟩ <;>
          rw [hf, appendLog_fst_ne hn] <;> exact he
      by_cases hnr : n ∈ rest
      · exact backupDirsLoop_bk_mem hn rest st' r h hnr hfst
      · have hni : n = item := by
          rcases List.mem_cons.mp hm with h1 | h1
          · exact h1
          · exact absurd h1 hnr
        subst hni
        have hbk : st'.2.1 n = some e := by
          rcases backupDirStep_cases hb with ⟨e2, hi, _, hbk2, _⟩ | ⟨hi, _, _, _⟩
          · rw [hbk2, setEntry_self]
            rw [hi] at he
            cases he
            rfl
          · rw [hi] at he; exact absurd he (by simp)
        rw [backupDirsLoop_bk_notmem rest st' r h hnr, hbk]

theorem backupFilesLoop_fst_ne {o : LogOracle} {n : Str} (hn : n ≠ MOD_DEBUG_LOG ∧ n ≠ UPDATE_LOG_FILE) :
    ∀ (files : List Str) (st r : FS × FS × Nat),
      backupFilesLoop o files st = some r → r.1 n = st.1 n
  | [], st, r, h => by
    simp only [backupFilesLoop, List.foldlM_nil] at h
    cases h
    rfl
  | item :: rest, st, r, h => by
    simp only [backupFilesLoop, List.foldlM_cons] at h
    cases hb : backupFileStep o st item with
    | none => rw [hb] at h; exact absurd h (by simp)
    | some st' =>
      rw [hb] at h
      replace h : backupFilesLoop o rest st' = some r := h
      have hr := backupFilesLoop_fst_ne hn rest st' r h
      rcases backupFileStep_cases hb with ⟨c, _, hf, _, _⟩ | ⟨_, hst⟩
      · rw [hr, hf, appendLog_fst_ne hn]
      · rw [hr, hst]

theorem backupFilesLoop_bk_notmem {o : LogOracle} {n : Str} :
    ∀ (files : List Str) (st r : FS × FS × Nat), backupFilesLoop o files st = some r →
      n ∉ files → r.2.1 n = st.2.1 n
  | [], st, r, h, _ => by
    simp only [backupFilesLoop, List.foldlM_nil] at h
    cases h
    rfl
  | item :: rest, st, r, h, hnm => by
    simp only [backupFilesLoop, List.foldlM_cons] at h
    cases hb : backupFileStep o st item with
    | none => rw [hb] at h; exact absurd h (by simp)
    | some st' =>
      rw [hb] at h
      replace h : backupFilesLoop o rest st' = some r := h
      have hni : n ≠ item := fun habs => hnm (habs ▸ List.mem_cons_self _ _)
      have hnr : n ∉ rest := fun habs => hnm (List.mem_cons_of_mem _ habs)
      have hr := backupFilesLoop_bk_notmem rest st' r h hnr
      rcases backupFileStep_cases hb with ⟨c, _, _, hbk, _⟩ | ⟨_, hst⟩
      · rw [hr, hbk, setEntry_ne _ _ hni]
      · rw [hr, hst]

theorem backupFilesLoop_no_dir {o : LogOracle} {n : Str} {d : List (Str × Str)}
    (hn : n ≠ MOD_DEBUG_LOG ∧ n ≠ UPDATE_LOG_FILE) :
    ∀ (files : List Str) (st r : FS × FS × Nat), backupFilesLoop o files st = some r →
      n ∈ files → st.1 n = some (FsEntry.dir d) → False
  | [], _, _, _, hm, _ => absurd hm (List.not_mem_nil n)
  | item :: rest, st, r, h, hm, he => by
    simp only [backupFilesLoop, List.foldlM_cons] at h
    by_cases hni : item = n
    · subst hni
      rw [backupFileStep_dir_none he] at h
      exact absurd h (by simp)
    · cases hb : backupFileStep o st item with
      | none => rw [hb] at h; exact absurd h (by simp)
      | some st' =>
        rw [hb] at h
        replace h : backupFilesLoop o rest st' = some r := h
        have hnr : n ∈ rest := by
          rcases List.mem_cons.mp hm with h1 | h1
          · exact absurd h1.symm hni
          · exact h1
        have hfst : st'.1 n = some (FsEntry.dir d) := by
          rcases backupFileStep_cases hb with ⟨c, _, hf, _, _⟩ | ⟨_, hst⟩
          · rw [hf, appendLog_fst_ne hn]; exact he
          · rw [hst]; exact he
        exact backupFilesLoop_no_dir hn rest st' r h hnr hfst

theorem backupFilesLoop_bk_mem {o : LogOracle} {n : Str} {c : Str}
    (hn : n ≠ MOD_DEBUG_LOG ∧ n ≠ UPDATE_LOG_FILE) :
    ∀ (files : List Str) (st r : FS × FS × Nat), backupFilesLoop o files st = some r →
      n ∈ files → st.1 n = some (FsEntry.file c) → r.2.1 n = some (FsEntry.file c)
  | [], _, _, _, hm, _ => absurd hm (List.not_mem_nil n)
  | item :: rest, st, r, h, hm, he => by
    simp only [backupFilesLoop, List.foldlM_cons] at h
    cases hb : backupFileStep o st item with
    | none => rw [hb] at h; exact absurd h (by simp)
    | some st' =>
      rw [hb] at h
      replace h : backupFilesLoop o rest st' = some r := h
      have hfst : st'.1 n = some (FsEntry.file c) := by
        rcases backupFileStep_cases hb with ⟨c2, _, hf, _, _⟩ | ⟨_, hst⟩
        · rw [hf, appendLog_fst_ne hn]; exact he
        · rw [hst]; exact he
      by_cases hnr : n ∈ rest
      · exact backupFilesLoop_bk_mem hn rest st' r h hnr hfst
      · have hni : n = item := by
          rcases List.mem_cons.mp hm with h1 | h1
          · exact h1
          · exact absurd h1 hnr
        subst hni
        have hbk : st'.2.1 n = some (FsEntry.file c) := by
          rcases backupFileStep_cases hb with ⟨c2, hi, _, hbk2, _⟩ | ⟨hi, _⟩
          · rw [hi] at he
            cases he
            rw [hbk2, setEntry_self]
          · rw [hi] at he; exact absurd he (by simp)
        rw [backupFilesLoop_bk_notmem rest st' r h hnr, hbk]

theorem installStep_mem {dirs : List Str} {fs r : FS} {p : Str × FsEntry}
    (h : installStep dirs fs p = some r) (hm : p.1 ∈ dirs) : r = fs := by
  unfold installStep at h
  rw [if_pos hm] at h
  cases h
  rfl

theorem installStep_ne {dirs : List Str} {fs r : FS} {p : Str × FsEntry} {n : Str}
    (h : installStep dirs fs p = some r) (hn : p.1 ≠ n) : r n = fs n := by
  unfold installStep at h
  by_cases hm : p.1 ∈ dirs
  · rw [if_pos hm] at h; cases h; rfl
  · rw [if_neg hm] at h
    have hns : n ≠ p.1 := Ne.symm hn
    cases hp : p.2 with
    | file c =>
      rw [hp] at h
      cases hf : fs p.1 with
      | none => rw [hf] at h; cases h; rw [setEntry_ne _ _ hns]
      | some e =>
        rw [hf] at h
        cases e with
        | file c2 => cases h; rw [setEntry_ne _ _ hns]
        | dir dd => cases h; rw [setEntry_ne _ _ hns]
    | dir d =>
      rw [hp] at h
      cases hf : fs p.1 with
      | none => rw [hf] at h; cases h; rw [setEntry_ne _ _ hns]
      | some e =>
        rw [hf] at h
        cases e with
        | file c2 => exact absurd h (by simp)
        | dir dd => cases h; rw [setEntry_ne _ _ hns]

theorem installStep_notdir {dirs : List Str} {fs r : FS} {p : Str × FsEntry} {n : Str}
    (h : installStep dirs fs p = some r) (hnd : NotDirAt (fs n))
    (hp : ∀ d, p ≠ (n, FsEntry.dir d)) : NotDirAt (r n) := by
  by_cases hm : p.1 ∈ dirs
  · rw [installStep_mem h hm]; exact hnd
  · by_cases hn : p.1 = n
    · obtain ⟨p1, pe⟩ := p
      dsimp only at hn
      subst hn
      unfold installStep at h
      rw [if_neg hm] at h
      cases hpe : pe with
      | dir d => exact absurd (by rw [hpe]) (hp d)
      | file c =>
        rw [hpe] at h
        cases hf : fs p1 with
        | none =>
          rw [hf] at h; cases h
          intro d
          rw [setEntry_self]
          simp
        | some e =>
          cases e with
          | file c2 =>
            rw [hf] at h; cases h
            intro d
            rw [setEntry_self]
            simp
          | dir dd => exact absurd hf (hnd dd)
    · intro d
      rw [installStep_ne h hn]
      exact hnd d

theorem installLoop_mem {dirs : List Str} {n : Str} (hm : n ∈ dirs) :
    ∀ (source : List (Str × FsEntry)) (fs r : FS),
      installLoop source dirs fs = some r → r n = fs n
  | [], fs, r, h => by
    simp only [installLoop, List.foldlM_nil] at h
    cases h
    rfl
  | p :: rest, fs, r, h => by
    simp only [installLoop, List.foldlM_cons] at h
    cases hb : installStep dirs fs p with
    | none => rw [hb] at h; exact absurd h (by simp)
    | some fs' =>
      rw [hb] at h
      replace h : installLoop rest dirs fs' = some r := h
      rw [installLoop_mem hm rest fs' r h]
      by_cases hpd : p.1 ∈ dirs
      · rw [installStep_mem hb hpd]
      · exact installStep_ne hb (fun habs => hpd (habs ▸ hm))

theorem installLoop_notdir {dirs : List Str} {n : Str} :
    ∀ (source : List (Str × FsEntry)) (fs r : FS),
      installLoop source dirs fs = some r → NotDirAt (fs n) →
      (∀ d, (n, FsEntry.dir d) ∉ source) → NotDirAt (r n)
  | [], fs, r, h, hnd, _ => by
    simp only [installLoop, List.foldlM_nil] at h
    cases h
    exact hnd
  | p :: rest, fs, r, h, hnd, hsrc => by
    simp only [installLoop, List.foldlM_cons] at h
    cases hb : installStep dirs fs p with
    | none => rw [hb] at h; exact absurd h (by simp)
    | some fs' =>
      rw [hb] at h
      replace h : installLoop rest dirs fs' = some r := h
      have hnd' : NotDirAt (fs' n) :=
        installStep_notdir hb hnd
          (fun d habs => hsrc d (habs ▸ List.mem_cons_self _ _))
      exact installLoop_notdir rest fs' r h hnd'
        (fun d habs => hsrc d (List.mem_cons_of_mem _ habs))

theorem restoreDirStep_fst_ne {o : LogOracle} {bk : FS} {st : FS × Nat}
    {item n : Str} (hn : n ≠ MOD_DEBUG_LOG ∧ n ≠ UPDATE_LOG_FILE) (hni : item ≠ n) :
    (restoreDirStep o bk st item).1 n = st.1 n := by
  unfold restoreDirStep
  cases hb : bk item with
  | none => rfl
  | some e =>
    rw [appendLog_fst_ne hn]
    dsimp only
    rw [setEntry_ne _ _ (Ne.symm hni)]

theorem restoreDirsLoop_notmem {o : LogOracle} {bk : FS} {n : Str}
    (hn : n ≠ MOD_DEBUG_LOG ∧ n ≠ UPDATE_LOG_FILE) :
    ∀ (dirs : List Str) (st : FS × Nat), n ∉ dirs →
      (restoreDirsLoop o bk dirs st).1 n = st.1 n
  | [], st, _ => rfl
  | item :: rest, st, hnm => by
    simp only [restoreDirsLoop, List.foldl_cons]
    have hni : item ≠ n := fun habs => hnm (habs ▸ List.mem_cons_self _ _)
    have hnr : n ∉ rest := fun habs => hnm (List.mem_cons_of_mem _ habs)
    rw [show List.foldl (restoreDirStep o bk) (restoreDirStep o bk st item) rest =
      restoreDirsLoop o bk rest (restoreDirStep o bk st item) from rfl]
    rw [restoreDirsLoop_notmem hn rest _ hnr, restoreDirStep_fst_ne hn hni]

theorem restoreDirsLoop_mem {o : LogOracle} {bk : FS} {n : Str} {e : FsEntry}
    (hn : n ≠ MOD_DEBUG_LOG ∧ n ≠ UPDATE_LOG_FILE) (hbk : bk n = some e) :
    ∀ (dirs : List Str) (st : FS × Nat), n ∈ dirs →
      (restoreDirsLoop o bk dirs st).1 n = some e
  | [], _, hm => absurd hm (List.not_mem_nil n)
  | item :: rest, st, hm => by
    simp only [restoreDirsLoop, List.foldl_cons]
    rw [show List.foldl (restoreDirStep o bk) (restoreDirStep o bk st item) rest =
      restoreDirsLoop o bk rest (restoreDirStep o bk st item) from rfl]
    by_cases hnr : n ∈ rest
    · exact restoreDirsLoop_mem hn hbk rest _ hnr
    · have hni : n = item := by
        rcases List.mem_cons.mp hm with h1 | h1
        · exact h1
        · exact absurd h1 hnr
      subst hni
      rw [restoreDirsLoop_notmem hn rest _ hnr]
      unfold restoreDirStep
      rw [hbk, appendLog_fst_ne hn]
      dsimp only
      exact setEntry_self _ _ _

theorem restoreFileStep_bk_dir_none {o : LogOracle} {bk : FS} {st : FS × Nat}
    {item : Str} {d : List (Str × Str)} (hbk : bk item = some (FsEntry.dir d)) :
    restoreFileStep o bk st item = none := by
  unfold restoreFileStep
  rw [hbk]

theorem restoreFileStep_fst_ne {o : LogOracle} {bk : FS} {st st' : FS × Nat}
    {item n : Str} (h : restoreFileStep o bk st item = some st')
    (hn : n ≠ MOD_DEBUG_LOG ∧ n ≠ UPDATE_LOG_FILE) (hni : item ≠ n) : st'.1 n = st.1 n := by
  unfold restoreFileStep at h
  cases hbk : bk item with
  | none => rw [hbk] at h; cases h; rfl
  | some e =>
    rw [hbk] at h
    cases e with
    | dir d => exact absurd h (by simp)
    | file c =>
      have hns : n ≠ item := Ne.symm hni
      cases hf : st.1 item with
      | none =>
        rw [hf] at h; cases h
        rw [appendLog_fst_ne hn]
        dsimp only
        rw [setEntry_ne _ _ hns]
      | some e2 =>
        rw [hf] at h
        cases e2 with
        | file c2 =>
          cases h
          rw [appendLog_fst_ne hn]
          dsimp only
          rw [setEntry_ne _ _ hns]
        | dir d2 =>
          cases h
          rw [appendLog_fst_ne hn]
          dsimp only
          rw [setEntry_ne _ _ hns]

theorem restoreFileStep_self {o : LogOracle} {bk : FS} {st st' : FS × Nat}
    {n : Str} {c : Str} (h : restoreFileStep o bk st n = some st')
    (hn : n ≠ MOD_DEBUG_LOG ∧ n ≠ UPDATE_LOG_FILE) (hbk : bk n = some (FsEntry.file c))
    (hnd : NotDirAt (st.1 n)) : st'.1 n = some (FsEntry.file c) := by
  unfold restoreFileStep at h
  rw [hbk] at h
  cases hf : st.1 n with
  | none =>
    rw [hf] at h; cases h
    rw [appendLog_fst_ne hn]
    dsimp only
    exact setEntry_self _ _ _
  | some e2 =>
    cases e2 with
    | file c2 =>
      rw [hf] at h; cases h
      rw [appendLog_fst_ne hn]
      dsimp only
      exact setEntry_self _ _ _
    | dir d2 => exact absurd hf (hnd d2)

theorem restoreFilesLoop_notmem {o : LogOracle} {bk : FS} {n : Str}
    (hn : n ≠ MOD_DEBUG_LOG ∧ n ≠ UPDATE_LOG_FILE) :
    ∀ (files : List Str) (st r : FS × Nat), restoreFilesLoop o bk files st = some r →
      n ∉ files → r.1 n = st.1 n
  | [], st, r, h, _ => by
    simp only [restoreFilesLoop, List.foldlM_nil] at h
    cases h
    rfl
  | item :: rest, st, r, h, hnm => by
    simp only [restoreFilesLoop, List.foldlM_cons] at h
    cases hb : restoreFileStep o bk st item with
    | none => rw [hb] at h; exact absurd h (by simp)
    | some st' =>
      rw [hb] at h
      replace h : restoreFilesLoop o bk rest st' = some r := h
      have hni : item ≠ n := fun habs => hnm (habs ▸ List.mem_cons_self _ _)
      have hnr : n ∉ rest := fun habs => hnm (List.mem_cons_of_mem _ habs)
      rw [restoreFilesLoop_notmem hn rest st' r h hnr,
        restoreFileStep_fst_ne hb hn hni]

theorem restoreFilesLoop_no_dir {o : LogOracle} {bk : FS} {n : Str}
    {d : List (Str × Str)} (hbk : bk n = some (FsEntry.dir d)) :
    ∀ (files : List Str) (st r : FS × Nat), restoreFilesLoop o bk files st = some r →
      n ∈ files → False
  | [], _, _, _, hm => absurd hm (List.not_mem_nil n)
  | item :: rest, st, r, h, hm => by
    simp only [restoreFilesLoop, List.foldlM_cons] at h
    by_cases hni : item = n
    · subst hni
      rw [restoreFileStep_bk_dir_none hbk] at h
      exact absurd h (by simp)
    · cases hb : restoreFileStep o bk st item with
      | none => rw [hb] at h; exact absurd h (by simp)
      | some st' =>
        rw [hb] at h
        replace h : restoreFilesLoop o bk rest st' = some r := h
        have hnr : n ∈ rest := by
          rcases List.mem_cons.mp hm with h1 | h1
          · exact absurd h1.symm hni
          · exact h1
        exact restoreFilesLoop_no_dir hbk rest st' r h hnr

theorem restoreFilesLoop_mem {o : LogOracle} {bk : FS} {n : Str} {c : Str}
    (hn : n ≠ MOD_DEBUG_LOG ∧ n ≠ UPDATE_LOG_FILE) (hbk : bk n = some (FsEntry.file c)) :
    ∀ (files : List Str) (st r : FS × Nat), restoreFilesLoop o bk files st = some r →
      n ∈ files → NotDirAt (st.1 n) → r.1 n = some (FsEntry.file c)
  | [], _, _, _, hm, _ => absurd hm (List.not_mem_nil n)
  | item :: rest, st, r, h, hm, hnd => by
    simp only [restoreFilesLoop, List.foldlM_cons] at h
    cases hb : restoreFileStep o bk st item with
    | none => rw [hb] at h; exact absurd h (by simp)
    | some st' =>
      rw [hb] at h
      replace h : restoreFilesLoop o bk rest st' = some r := h
      by_cases hni : item = n
      · subst hni
        have hself : st'.1 item = some (FsEntry.file c) := restoreFileStep_self hb hn hbk hnd
        by_cases hnr : item ∈ rest
        · exact restoreFilesLoop_mem hn hbk rest st' r h hnr
            (fun d habs => by rw [hself] at habs; cases habs)
        · rw [restoreFilesLoop_notmem hn rest st' r h hnr, hself]
      · have hnr : n ∈ rest := by
          rcases List.mem_cons.mp hm with h1 | h1
          · exact absurd h1.symm hni
          · exact h1
        have hnd' : NotDirAt (st'.1 n) := by
          intro d
          rw [restoreFileStep_fst_ne hb hn hni]
          exact hnd d
        exact restoreFilesLoop_mem hn hbk rest st' r h hnr hnd'

theorem backupDirsLoop_ext {o : LogOracle} {n : Str} {b : Str} :
    ∀ (dirs : List Str) (st r : FS × FS × Nat), backupDirsLoop o dirs st = some r →
      ExtFile b (st.1 n) → ExtFile b (r.1 n)
  | [], st, r, h, hext => by
    simp only [backupDirsLoop, List.foldlM_nil] at h
    cases h
    exact hext
  | item :: rest, st, r, h, hext => by
    simp only [backupDirsLoop, List.foldlM_cons] at h
    cases hb : backupDirStep o st item with
    | none => rw [hb] at h; exact absurd h (by simp)
    | some st' =>
      rw [hb] at h
      replace h : backupDirsLoop o rest st' = some r := h
      have hext' : ExtFile b (st'.1 n) := by
        rcases backupDirStep_cases hb with ⟨e, _, hf, _, _⟩ | ⟨_, hf, _, _⟩ <;>
          rw [hf] <;> exact appendLog_ext hext
      exact backupDirsLoop_ext rest st' r h hext'

theorem backupFilesLoop_ext {o : LogOracle} {n : Str} {b : Str} :
    ∀ (files : List Str) (st r : FS × FS × Nat), backupFilesLoop o files st = some r →
      ExtFile b (st.1 n) → ExtFile b (r.1 n)
  | [], st, r, h, hext => by
    simp only [backupFilesLoop, List.foldlM_nil] at h
    cases h
    exact hext
  | item :: rest, st, r, h, hext => by
    simp only [backupFilesLoop, List.foldlM_cons] at h
    cases hb : backupFileStep o st item with
    | none => rw [hb] at h; exact absurd h (by simp)
    | some st' =>
      rw [hb] at h
      replace h : backupFilesLoop o rest st' = some r := h
      have hext' : ExtFile b (st'.1 n) := by
        rcases backupFileStep_cases hb with ⟨c, _, hf, _, _⟩ | ⟨_, hst⟩
        · rw [hf]; exact appendLog_ext hext
        · rw [hst]; exact hext
      exact backupFilesLoop_ext rest st' r h hext'

theorem backupFilesLoop_bk_ext {o : LogOracle} {n : Str} {b : Str} :
    ∀ (files : List Str) (st r : FS × FS × Nat), backupFilesLoop o files st = some r →
      n ∈ files → ExtFile b (st.1 n) →
      ExtFile b (r.2.1 n)
  | [], _, _, _, hm, _ => absurd hm (List.not_mem_nil _)
  | item :: rest, st, r, h, hm, hext => by
    simp only [backupFilesLoop, List.foldlM_cons] at h
    cases hb : backupFileStep o st item with
    | none => rw [hb] at h; exact absurd h (by simp)
    | some st' =>
      rw [hb] at h
      replace h : backupFilesLoop o rest st' = some r := h
      have hext' : ExtFile b (st'.1 n) := by
        rcases backupFileStep_cases hb with ⟨c, _, hf, _, _⟩ | ⟨_, hst⟩
        · rw [hf]; exact appendLog_ext hext
        · rw [hst]; exact hext
      by_cases hnr : n ∈ rest
      · exact backupFilesLoop_bk_ext rest st' r h hnr hext'
      · have hni : n = item := by
          rcases List.mem_cons.mp hm with h1 | h1
          · exact h1
          · exact absurd h1 hnr
        obtain ⟨s, hs⟩ := hext
        have hbk : st'.2.1 n = some (FsEntry.file (b ++ s)) := by
          rcases backupFileStep_cases hb with ⟨c, hi, _, hbk2, _⟩ | ⟨hi, _⟩
          · rw [← hni, hs] at hi
            cases hi
            rw [hbk2, ← hni, setEntry_self]
          · rw [← hni, hs] at hi; exact absurd hi (by simp)
        rw [backupFilesLoop_bk_notmem rest st' r h hnr, hbk]
        exact ⟨s, rfl⟩

theorem restoreDirsLoop_notdir {o : LogOracle} {bk : FS} {n : Str} :
    ∀ (dirs : List Str) (st : FS × Nat), n ∉ dirs →
      NotDirAt (st.1 n) →
      NotDirAt ((restoreDirsLoop o bk dirs st).1 n)
  | [], st, _, hnd => hnd
  | item :: rest, st, hnm, hnd => by
    simp only [restoreDirsLoop, List.foldl_cons]
    rw [show List.foldl (restoreDirStep o bk) (restoreDirStep o bk st item) rest =
      restoreDirsLoop o bk rest (restoreDirStep o bk st item) from rfl]
    have hni : item ≠ n := fun habs => hnm (habs ▸ List.mem_cons_self _ _)
    have hnr : n ∉ rest := fun habs => hnm (List.mem_cons_of_mem _ habs)
    have hnd' : NotDirAt ((restoreDirStep o bk st item).1 n) := by
      unfold restoreDirStep
      cases hb : bk item with
      | none => exact hnd
      | some e =>
        apply appendLog_notdir
        intro d
        dsimp only
        rw [setEntry_ne _ _ (Ne.symm hni)]
        exact hnd d
    exact restoreDirsLoop_notdir rest _ hnr hnd'

theorem restoreFileStep_self_ext {o : LogOracle} {bk : FS} {st st' : FS × Nat}
    {n : Str} {b2 : Str} (h : restoreFileStep o bk st n = some st')
    (hbk : bk n = some (FsEntry.file b2))
    (hnd : NotDirAt (st.1 n)) :
    ExtFile b2 (st'.1 n) := by
  unfold restoreFileStep at h
  rw [hbk] at h
  have hset : ExtFile b2
      ((setEntry st.1 n (FsEntry.file b2)) n) :=
    ⟨[], by rw [List.append_nil]; exact setEntry_self _ _ _⟩
  cases hf : st.1 n with
  | none =>
    rw [hf] at h; cases h
    exact appendLog_ext hset
  | some e2 =>
    cases e2 with
    | file c2 =>
      rw [hf] at h; cases h
      exact appendLog_ext hset
    | dir d2 => exact absurd hf (hnd d2)

theorem restoreFileStep_ext_ne {o : LogOracle} {bk : FS} {st st' : FS × Nat}
    {item n : Str} {b : Str} (h : restoreFileStep o bk st item = some st')
    (hni : item ≠ n) (hext : ExtFile b (st.1 n)) :
    ExtFile b (st'.1 n) := by
  unfold restoreFileStep at h
  obtain ⟨s, hs⟩ := hext
  cases hbk : bk item with
  | none => rw [hbk] at h; cases h; exact ⟨s, hs⟩
  | some e =>
    rw [hbk] at h
    cases e with
    | dir d => exact absurd h (by simp)
    | file c =>
      have hpre : ∀ e2 : FsEntry, ExtFile b
          ((setEntry st.1 item e2) n) := by
        intro e2
        rw [setEntry_ne _ _ (Ne.symm hni)]
        exact ⟨s, hs⟩
      cases hf : st.1 item with
      | none =>
        rw [hf] at h; cases h
        exact appendLog_ext (hpre _)
      | some e2 =>
        rw [hf] at h
        cases e2 with
        | file c2 => cases h; exact appendLog_ext (hpre _)
        | dir d2 => cases h; exact appendLog_ext (hpre _)

theorem restoreFileStep_notdir_ne {o : LogOracle} {bk : FS} {st st' : FS × Nat}
    {item n : Str} (h : restoreFileStep o bk st item = some st')
    (hni : item ≠ n) (hnd : NotDirAt (st.1 n)) :
    NotDirAt (st'.1 n) := by
  unfold restoreFileStep at h
  cases hbk : bk item with
  | none => rw [hbk] at h; cases h; exact hnd
  | some e =>
    rw [hbk] at h
    cases e with
    | dir d => exact absurd h (by simp)
    | file c =>
      have hpre : ∀ e2 : FsEntry, NotDirAt
          ((setEntry st.1 item e2) n) := by
        intro e2 d
        rw [setEntry_ne _ _ (Ne.symm hni)]
        exact hnd d
      cases hf : st.1 item with
      | none =>
        rw [hf] at h; cases h
        exact appendLog_notdir (hpre _)
      | some e2 =>
        rw [hf] at h
        cases e2 with
        | file c2 => cases h; exact appendLog_notdir (hpre _)
        | dir d2 => cases h; exact appendLog_notdir (hpre _)

theorem restoreFilesLoop_ext_inv {o : LogOracle} {bk : FS} {n : Str} {b2 : Str}
    (hbk : bk n = some (FsEntry.file b2)) :
    ∀ (files : List Str) (st r : FS × Nat), restoreFilesLoop o bk files st = some r →
      ExtFile b2 (st.1 n) → ExtFile b2 (r.1 n)
  | [], st, r, h, hext => by
    simp only [restoreFilesLoop, List.foldlM_nil] at h
    cases h
    exact hext
  | item :: rest, st, r, h, hext => by
    simp only [restoreFilesLoop, List.foldlM_cons] at h
    cases hb : restoreFileStep o bk st item with
    | none => rw [hb] at h; exact absurd h (by simp)
    | some st' =>
      rw [hb] at h
      replace h : restoreFilesLoop o bk rest st' = some r := h
      have hext' : ExtFile b2 (st'.1 n) := by
        by_cases hni : item = n
        · subst hni
          refine restoreFileStep_self_ext hb hbk ?_
          obtain ⟨s, hs⟩ := hext
          intro d
          rw [hs]
          simp
        · exact restoreFileStep_ext_ne hb hni hext
      exact restoreFilesLoop_ext_inv hbk rest st' r h hext'

theorem restoreFilesLoop_ext {o : LogOracle} {bk : FS} {n : Str} {b2 : Str}
    (hbk : bk n = some (FsEntry.file b2)) :
    ∀ (files : List Str) (st r : FS × Nat), restoreFilesLoop o bk files st = some r →
      n ∈ files → NotDirAt (st.1 n) →
      ExtFile b2 (r.1 n)
  | [], _, _, _, hm, _ => absurd hm (List.not_mem_nil _)
  | item :: rest, st, r, h, hm, hnd => by
    simp only [restoreFilesLoop, List.foldlM_cons] at h
    cases hb : restoreFileStep o bk st item with
    | none => rw [hb] at h; exact absurd h (by simp)
    | some st' =>
      rw [hb] at h
      replace h : restoreFilesLoop o bk rest st' = some r := h
      by_cases hni : item = n
      · subst hni
        exact restoreFilesLoop_ext_inv hbk rest st' r h
          (restoreFileStep_self_ext hb hbk hnd)
      · have hnr : n ∈ rest := by
          rcases List.mem_cons.mp hm with h1 | h1
          · exact absurd h1.symm hni
          · exact h1
        exact restoreFilesLoop_ext hbk rest st' r h hnr
          (restoreFileStep_notdir_ne hb hni hnd)

/-- C1 (amended): on a completed run of `perform_update`, every preserved
directory that existed before is afterwards byte-for-byte identical to its
pre-update state, and never taken from the payload.  The preserved files —
exactly the two log files, `mod_debug.log` and `update_history.log` — are
not byte-for-byte preserved: both are written by the updater's own logging
(`_log_update` appends a line to the update history log and, through the
configured `logging` handler, to the app log on every call), so each one
that existed before as a file ends with its pre-update content extended by
appended lines (restored mid-growth from the step-3 backup and appended to
again afterwards), provided the payload ships no directory under its name
(a same-named payload directory would swallow the restored copy nested
inside it). -/
theorem c1_preserved_entries_amended :
    (∀ (root : FS) (source : List (Str × FsEntry)) (dirs : List Str) (o : LogOracle)
      (n : Str) (e : FsEntry) (fs2 : FS),
      perform_update root source dirs o = some fs2 →
      n ≠ MOD_DEBUG_LOG ∧ n ≠ UPDATE_LOG_FILE →
      root n = some e →
      n ∈ dirs →
      fs2 n = some e)
    ∧ (∀ (root : FS) (source : List (Str × FsEntry)) (dirs : List Str) (o : LogOracle)
      (lg b : Str) (fs2 : FS),
      perform_update root source dirs o = some fs2 →
      lg ∈ PRESERVED_FILES →
      root lg = some (FsEntry.file b) →
      lg ∉ dirs →
      (∀ d, (lg, FsEntry.dir d) ∉ source) →
      ∃ s, fs2 lg = some (FsEntry.file (b ++ s))) := by
  constructor
  · intro root source dirs o n e fs2 hrun hn hroot hdirs
    simp only [perform_update] at hrun
    rw [Option.bind_eq_some] at hrun
    obtain ⟨s1, hbd, hrun⟩ := hrun
    rw [Option.bind_eq_some] at hrun
    obtain ⟨s2, hbf, hrun⟩ := hrun
    rw [Option.bind_eq_some] at hrun
    obtain ⟨fs6, hinst, hrun⟩ := hrun
    rw [Option.bind_eq_some] at hrun
    obtain ⟨s9, hrf, hrun⟩ := hrun
    cases hrun
    have hnp : n ∉ PRESERVED_FILES := by
      intro hmem
      rcases List.mem_cons.mp hmem with h1 | h1
      · exact hn.1 h1
      · rcases List.mem_cons.mp h1 with h2 | h2
        · exact hn.2 h2
        · exact absurd h2 (List.not_mem_nil n)
    have h0 : ((appendLog o)^[10] ((root, 0) : FS × Nat)).1 n = some e := by
      rw [appendLog_iter_fst_ne hn]
      exact hroot
    have hb1 : s1.2.1 n = some e :=
      backupDirsLoop_bk_mem hn dirs _ s1 hbd hdirs h0
    have hbkn : s2.2.1 n = some e := by
      rw [backupFilesLoop_bk_notmem PRESERVED_FILES s1 s2 hbf hnp]
      exact hb1
    have h8 : (restoreDirsLoop o s2.2.1 dirs
        (appendLog o (fs6, (appendLog o (emptyFS,
          (appendLog o (s2.1, s2.2.2)).2)).2))).1 n = some e :=
      restoreDirsLoop_mem hn hbkn dirs _ hdirs
    rw [appendLog_iter_fst_ne hn,
      restoreFilesLoop_notmem hn PRESERVED_FILES _ s9 hrf hnp]
    exact h8
  · intro root source dirs o lg b fs2 hrun hlg hroot hnd hnsrc
    simp only [perform_update] at hrun
    rw [Option.bind_eq_some] at hrun
    obtain ⟨s1, hbd, hrun⟩ := hrun
    rw [Option.bind_eq_some] at hrun
    obtain ⟨s2, hbf, hrun⟩ := hrun
    rw [Option.bind_eq_some] at hrun
    obtain ⟨fs6, hinst, hrun⟩ := hrun
    rw [Option.bind_eq_some] at hrun
    obtain ⟨s9, hrf, hrun⟩ := hrun
    cases hrun
    have hext0 : ExtFile b (((appendLog o)^[10] ((root, 0) : FS × Nat)).1 lg) :=
      appendLog_iter_ext 10 (root, 0) ⟨[], by rw [List.append_nil]; exact hroot⟩
    have hext1 : ExtFile b (s1.1 lg) :=
      backupDirsLoop_ext dirs _ s1 hbd hext0
    have hbk : ExtFile b (s2.2.1 lg) :=
      backupFilesLoop_bk_ext PRESERVED_FILES s1 s2 hbf hlg hext1
    obtain ⟨s1x, hbkx⟩ := hbk
    have h5nd : NotDirAt ((appendLog o ((emptyFS,
        (appendLog o (s2.1, s2.2.2)).2) : FS × Nat)).1 lg) :=
      appendLog_notdir (fun d => by simp [emptyFS])
    have h6nd : NotDirAt (fs6 lg) :=
      installLoop_notdir source _ fs6 hinst h5nd hnsrc
    have h8nd : NotDirAt ((restoreDirsLoop o s2.2.1 dirs
        (appendLog o (fs6, (appendLog o (emptyFS,
          (appendLog o (s2.1, s2.2.2)).2)).2))).1 lg) :=
      restoreDirsLoop_notdir dirs _ hnd (appendLog_notdir h6nd)
    have hext9 : ExtFile (b ++ s1x) (s9.1 lg) :=
      restoreFilesLoop_ext hbkx PRESERVED_FILES _ s9 hrf hlg h8nd
    obtain ⟨s2x, hfin⟩ := appendLog_iter_ext 3 s9 hext9
    exact ⟨s1x ++ s2x, by rw [hfin, List.append_assoc]⟩

/-- Oracle with empty timestamps and messages (each update-log line is
`"[] \n"` and each app-log line is `"INFO:root:\n"`). -/
def o0 : LogOracle := ⟨fun _ => [], fun _ => []⟩

/-- A concrete installation root: the permanent update log with content
`old`, and a user directory `cfg` containing `settings.json` with content
`a-1`. -/
def root0 : FS := fun n =>
  if n = "update_history.log".data then some (FsEntry.file "old".data)
  else if n = "cfg".data then some (FsEntry.dir [("settings.json".data, "a-1".data)])
  else none

/-- A concrete extracted release payload that ships its own `cfg` directory
with different content, plus a code file. -/
def source0 : List (Str × FsEntry) :=
  [("cfg".data, FsEntry.dir [("settings.json".data, "new".data)]),
   ("mod_manager.py".data, FsEntry.file "code".data)]

/-- C1 counterexample: a successfully completed run of `perform_update`
leaves the preserved file `update_history.log` — which existed before with
content `old` — with different (extended) content, because the updater's own
progress logging appends to it; so not every preservation-set entry is
byte-for-byte identical afterwards. -/
theorem c1_preserved_entries_counterexample :
    (perform_update root0 source0 BASE_PRESERVED_DIRS o0).isSome = true
    ∧ "update_history.log".data ∈ PRESERVED_FILES
    ∧ root0 "update_history.log".data = some (FsEntry.file "old".data)
    ∧ (perform_update root0 source0 BASE_PRESERVED_DIRS o0).map
        (fun f => f "update_history.log".data) ≠
        some (some (FsEntry.file "old".data)) := by decide

/-- Witness for C1 on concrete data: after a completed update in which the
payload shipped its own `cfg`, the preserved directory `cfg` still holds the
original `settings.json` content. -/
theorem c1_preserved_entries_witness :
    (perform_update root0 source0 BASE_PRESERVED_DIRS o0).map
      (fun f => f "cfg".data) =
      some (some (FsEntry.dir [("settings.json".data, "a-1".data)])) := by
  cases h : perform_update root0 source0 BASE_PRESERVED_DIRS o0 with
  | none =>
    have hs : (perform_update root0 source0 BASE_PRESERVED_DIRS o0).isSome = true := by
      decide
    rw [h] at hs
    exact absurd hs (by simp)
  | some fsf =>
    have hp := c1_preserved_entries_amended.1 root0 source0 BASE_PRESERVED_DIRS o0
      "cfg".data (FsEntry.dir [("settings.json".data, "a-1".data)]) fsf h
      ⟨by decide, by decide⟩ (by decide) (by decide)
    exact congrArg some hp

/-- C2: the code evaluated at the failing input — a run in which the backup
step completed and an exception occurs right after the purge (at the first
copy of step 5).  The outer `except` handler of `perform_update` only logs
and returns `False`: no restore step runs, the backup is discarded with the
temporary directory, and the preserved directory `cfg` that existed before
the operation is absent from the installation root afterwards; the caller
receives the same generic `False` as for any other failure, not a distinct
partial-update error. -/
theorem c2_no_restore_after_purge :
    root0 "cfg".data = some (FsEntry.dir [("settings.json".data, "a-1".data)])
    ∧ "cfg".data ∈ BASE_PRESERVED_DIRS
    ∧ (perform_update_faulted root0 BASE_PRESERVED_DIRS o0).map
        (fun p => (p.1, p.2 "cfg".data)) = some (false, none) := by decide

/-- Witness for C4 at the pair `("update_test","1.0.2")`. -/
theorem c4_compare_versions_fallback_witness :
    compare_versions "update_test".data "1.0.2".data = true :=
  (c4_compare_versions_fallback.1 "update_test".data "1.0.2".data
    (Or.inl (by decide))).mpr (by decide)
